import Mathlib

/-
Shallow embedding of the FTMixer-BFSim core:
  src/classes/ft_classes.py  (ImageProcessor, ImageViewer, FTMixer)
  src/pages/ft_page.py       (start_mixing, mix_worker)

Modelling conventions:
  - A numpy 2-D array is an `NDArr`: a (height, width) shape plus ambient cell
    data (a total function on indices); claims about array contents quantify
    over indices inside the shape where it matters.
  - Pixel samples and weights are real numbers; spectra are complex valued.
    Floating point rounding is outside the model: arithmetic is exact.
  - The external scipy transform routines (fft2, ifft2, fftshift, ifftshift)
    and the PIL Lanczos resampler are opaque library calls, modelled as
    abstract function bundles (`FFTImpl`, `ResizeImpl`).  Everything the
    repository itself computes is embedded concretely.
  - The shared `threading.Event` cancellation flag is modelled by the
    sequence of values the worker observes at its polls: `flag : Nat -> Bool`
    gives the value seen at the n-th poll of one mix run.  A separate
    explicit interleaving model (`MixerSys`) covers the start-mixing /
    worker-thread interaction of ft_page.py.
  - numpy `astype(np.uint8)` and Python `int(...)` truncate toward zero;
    `pyInt` models that (they are applied to values already clipped into
    [0, 255] on the paths embedded here, where truncation equals floor).
-/

namespace FTSim

/-- A numpy-style 2-D array: (height, width) shape plus ambient cell data. -/
structure NDArr (α : Type) where
  shape : Nat × Nat
  data : Nat → Nat → α

/-- Python int() conversion: truncation toward zero. -/
noncomputable def pyInt (x : ℝ) : ℤ :=
  if 0 ≤ x then ⌊x⌋ else -⌊-x⌋

/-- np.clip(x, lo, hi). -/
noncomputable def npClip (x lo hi : ℝ) : ℝ :=
  max lo (min x hi)

/-- The external scipy.fft routines, abstracted as an opaque bundle.  The
repository applies them but never looks inside them. -/
structure FFTImpl where
  fft2 : NDArr ℝ → NDArr ℂ
  fftshift : NDArr ℂ → NDArr ℂ
  ifftshift : NDArr ℂ → NDArr ℂ
  ifft2 : NDArr ℂ → NDArr ℂ

/-- The external PIL resampler (Image.resize with Image.LANCZOS), abstracted.
`resize a (th, tw)` resamples `a` to target shape (th, tw). -/
structure ResizeImpl where
  resize : NDArr ℝ → Nat × Nat → NDArr ℝ

/-- The analytic facts about the scipy transform pair that the round-trip
property relies on: shapes are preserved, ifftshift undoes fftshift and
ifft2 undoes fft2 (exactly, in exact arithmetic, with a real-valued result
embedded in the complex plane). -/
structure FFTImpl.Lawful (F : FFTImpl) : Prop where
  fft2_shape : ∀ a, (F.fft2 a).shape = a.shape
  fftshift_shape : ∀ s, (F.fftshift s).shape = s.shape
  shift_inv : ∀ s, F.ifftshift (F.fftshift s) = s
  fft_inv : ∀ a, F.ifft2 (F.fft2 a) = ⟨a.shape, fun i j => ((a.data i j : ℝ) : ℂ)⟩

/-- All in-shape samples lie in the display range [0, 255]
(the `self.image.min() < 0 or self.image.max() > 255` test). -/
def NDArr.withinRange (a : NDArr ℝ) : Prop :=
  ∀ i j, i < a.shape.1 → j < a.shape.2 → 0 ≤ a.data i j ∧ a.data i j ≤ 255

/-- self.image.astype(np.uint8): per-cell truncation to an integer value
(kept as a real-valued array, as PIL receives it). -/
noncomputable def NDArr.astypeUint8 (a : NDArr ℝ) : NDArr ℝ :=
  ⟨a.shape, fun i j => ((pyInt (a.data i j) : ℤ) : ℝ)⟩

/-- ImageProcessor state: image buffer, cached centered transform, shape.
(ft_classes.py lines 17-23.) -/
structure ImageProcessor where
  image : Option (NDArr ℝ)
  fft_result : Option (NDArr ℂ)
  shape : Option (Nat × Nat)

/-- A freshly constructed ImageProcessor. -/
def ImageProcessor.init : ImageProcessor :=
  ⟨none, none, none⟩

open Classical in
/-- ImageProcessor.load_from_array (lines 40-60).  A None argument returns
None and leaves the state untouched; otherwise the array is stored (clipped
to [0, 255] when some in-range test fails), shape is recorded, and the
cached transform is reset.  The ndim != 2 ValueError branch cannot arise
here because every NDArr is 2-D. -/
noncomputable def ImageProcessor.load_from_array (p : ImageProcessor)
    (array : Option (NDArr ℝ)) : ImageProcessor × Option (NDArr ℝ) :=
  match array with
  | none => (p, none)
  | some arr =>
      let image :=
        if arr.withinRange then arr
        else ⟨arr.shape, fun i j => npClip (arr.data i j) 0 255⟩
      (⟨some image, none, some image.shape⟩, some image)

/-- ImageProcessor.resize_to (lines 62-73): None (state untouched) when no
image is loaded; otherwise the image is cast to uint8, resampled by the
Lanczos kernel to the target shape, and the cached transform is reset. -/
noncomputable def ImageProcessor.resize_to (p : ImageProcessor) (L : ResizeImpl)
    (target_shape : Nat × Nat) : ImageProcessor × Option (NDArr ℝ) :=
  match p.image with
  | none => (p, none)
  | some image =>
      let resized := L.resize image.astypeUint8 target_shape
      (⟨some resized, none, some resized.shape⟩, some resized)

/-- ImageProcessor.compute_fft (lines 75-81): None when no image; otherwise
compute fftshift(fft2(image)) on first access and cache it, returning the
cached array afterwards. -/
def ImageProcessor.compute_fft (p : ImageProcessor) (F : FFTImpl) :
    ImageProcessor × Option (NDArr ℂ) :=
  match p.image with
  | none => (p, none)
  | some image =>
      match p.fft_result with
      | some r => (p, some r)
      | none =>
          let r := F.fftshift (F.fft2 image)
          (⟨p.image, some r, p.shape⟩, some r)

/-- The value compute_fft returns, with a junk default for the no-image case
(only ever used on processors that hold an image). -/
def ImageProcessor.fftValD (p : ImageProcessor) (F : FFTImpl) : NDArr ℂ :=
  (p.compute_fft F).2.getD ⟨(0, 0), fun _ _ => 0⟩

/-- ImageProcessor.get_magnitude (lines 83-88): np.abs of the transform. -/
noncomputable def ImageProcessor.get_magnitude (p : ImageProcessor) (F : FFTImpl) :
    Option (NDArr ℝ) :=
  (p.compute_fft F).2.map fun z => ⟨z.shape, fun i j => Complex.abs (z.data i j)⟩

/-- ImageProcessor.get_phase (lines 90-95): np.angle of the transform. -/
noncomputable def ImageProcessor.get_phase (p : ImageProcessor) (F : FFTImpl) :
    Option (NDArr ℝ) :=
  (p.compute_fft F).2.map fun z => ⟨z.shape, fun i j => (z.data i j).arg⟩

/-- ImageProcessor.get_real (lines 97-102). -/
def ImageProcessor.get_real (p : ImageProcessor) (F : FFTImpl) :
    Option (NDArr ℝ) :=
  (p.compute_fft F).2.map fun z => ⟨z.shape, fun i j => (z.data i j).re⟩

/-- ImageProcessor.get_imaginary (lines 104-109). -/
def ImageProcessor.get_imaginary (p : ImageProcessor) (F : FFTImpl) :
    Option (NDArr ℝ) :=
  (p.compute_fft F).2.map fun z => ⟨z.shape, fun i j => (z.data i j).im⟩

/-- Per-cell magnitude of the transform value (the array get_magnitude wraps). -/
noncomputable def magD (F : FFTImpl) (p : ImageProcessor) (i j : Nat) : ℝ :=
  Complex.abs ((p.fftValD F).data i j)

/-- Per-cell phase of the transform value (the array get_phase wraps). -/
noncomputable def phaseD (F : FFTImpl) (p : ImageProcessor) (i j : Nat) : ℝ :=
  ((p.fftValD F).data i j).arg

/-- Per-cell real part of the transform value (the array get_real wraps). -/
def realD (F : FFTImpl) (p : ImageProcessor) (i j : Nat) : ℝ :=
  ((p.fftValD F).data i j).re

/-- Per-cell imaginary part of the transform value (the array get_imaginary wraps). -/
def imagD (F : FFTImpl) (p : ImageProcessor) (i j : Nat) : ℝ :=
  ((p.fftValD F).data i j).im

/-- ImageViewer, reduced to the state the mixing claims touch: its owned
processor.  Display-only fields (colors, brightness, contrast, component
selection) are dropped. -/
structure ImageViewer where
  processor : ImageProcessor

/-- ImageViewer.resize_to (lines 197-204): delegates to the processor inside
try/except and returns True unless an exception escapes.  No modelled
operation raises, so the result is always True. -/
noncomputable def ImageViewer.resize_to (v : ImageViewer) (L : ResizeImpl)
    (target_shape : Nat × Nat) : ImageViewer × Bool :=
  (⟨(v.processor.resize_to L target_shape).1⟩, true)

/-- ImageViewer.load_from_array (lines 170-195): False for a None array,
otherwise load into the processor and report whether an image is now held. -/
noncomputable def ImageViewer.load_from_array (v : ImageViewer)
    (array : Option (NDArr ℝ)) : ImageViewer × Bool :=
  match array with
  | none => (v, false)
  | some arr =>
      let (p, result) := v.processor.load_from_array (some arr)
      (⟨p⟩, result.isSome)

/-- The region-selection rectangle dict, normalized coordinates. -/
structure Rect where
  x0 : ℝ
  y0 : ℝ
  x1 : ℝ
  y1 : ℝ

namespace FTMixer

/-- The pixel bounds computed by FTMixer.create_region_mask (lines 385-393):
int() conversion of each normalized coordinate times the dimension, then
`x0, x1 = max(0, min(x0, x1)), min(w, max(x0, x1))` and likewise for y.
Returned as (xlo, xhi, ylo, yhi). -/
noncomputable def region_pixel_bounds (shape : Nat × Nat) (rect : Rect) :
    ℤ × ℤ × ℤ × ℤ :=
  let h := shape.1
  let w := shape.2
  let x0 := pyInt (rect.x0 * w)
  let y0 := pyInt (rect.y0 * h)
  let x1 := pyInt (rect.x1 * w)
  let y1 := pyInt (rect.y1 * h)
  (max 0 (min x0 x1), min (w : ℤ) (max x0 x1),
   max 0 (min y0 y1), min (h : ℤ) (max y0 y1))

/-- FTMixer.create_region_mask (lines 379-401): 1.0 on the clamped pixel
rectangle and 0.0 elsewhere when use_inner, the complement otherwise. -/
noncomputable def create_region_mask (shape : Nat × Nat) (rect : Rect)
    (use_inner : Bool) : NDArr ℝ :=
  let b := region_pixel_bounds shape rect
  let xlo := b.1
  let xhi := b.2.1
  let ylo := b.2.2.1
  let yhi := b.2.2.2
  if use_inner then
    ⟨shape, fun i j =>
      if ylo ≤ (i : ℤ) ∧ (i : ℤ) < yhi ∧ xlo ≤ (j : ℤ) ∧ (j : ℤ) < xhi
      then 1 else 0⟩
  else
    ⟨shape, fun i j =>
      if ylo ≤ (i : ℤ) ∧ (i : ℤ) < yhi ∧ xlo ≤ (j : ℤ) ∧ (j : ℤ) < xhi
      then 0 else 1⟩

/-- The `valid_data` filter of FTMixer.mix_components (lines 421-422):
zip the processors with their weights and keep entries holding an image
(the `p is not None` null guard cannot fire in the model). -/
def validData (processors : List ImageProcessor) (weights : List ℝ) :
    List (ImageProcessor × ℝ) :=
  (processors.zip weights).filter fun pw => pw.1.image.isSome

/-- The accumulation loop of FTMixer._mix_magnitude_phase (lines 479-488).
`k` counts polls of the cancellation flag: the flag is polled once at the
head of each per-source step; an observed True aborts with None.  Arguments
after the list are the running mixed_magnitude, mixed_phase, total_weight. -/
noncomputable def mix_magnitude_phase_loop (F : FFTImpl) (flag : Nat → Bool) :
    Nat → List (ImageProcessor × ℝ) → (Nat → Nat → ℝ) → (Nat → Nat → ℝ) → ℝ →
    Option ((Nat → Nat → ℝ) × (Nat → Nat → ℝ) × ℝ)
  | _, [], mixed_magnitude, mixed_phase, total_weight =>
      some (mixed_magnitude, mixed_phase, total_weight)
  | k, (processor, weight) :: rest, mixed_magnitude, mixed_phase, total_weight =>
      if flag k then none
      else
        mix_magnitude_phase_loop F flag (k + 1) rest
          (fun i j => mixed_magnitude i j + weight * magD F processor i j)
          (fun i j => mixed_phase i j + weight * phaseD F processor i j)
          (total_weight + weight)

/-- FTMixer._mix_magnitude_phase (lines 473-496): run the loop from zero
arrays and zero total weight, divide by total_weight only when it is
positive, then reconstruct magnitude * exp(1j * phase). -/
noncomputable def mix_magnitude_phase (F : FFTImpl) (flag : Nat → Bool)
    (valid_data : List (ImageProcessor × ℝ)) (shape : Nat × Nat) :
    Option (NDArr ℂ) :=
  match mix_magnitude_phase_loop F flag 0 valid_data
      (fun _ _ => 0) (fun _ _ => 0) 0 with
  | none => none
  | some (mixed_magnitude, mixed_phase, total_weight) =>
      let m := if 0 < total_weight
        then fun i j => mixed_magnitude i j / total_weight
        else mixed_magnitude
      let ph := if 0 < total_weight
        then fun i j => mixed_phase i j / total_weight
        else mixed_phase
      some ⟨shape, fun i j =>
        ((m i j : ℝ) : ℂ) * Complex.exp (Complex.I * ((ph i j : ℝ) : ℂ))⟩

/-- The accumulation loop of FTMixer._mix_real_imaginary (lines 504-513),
with the same poll-counting convention. -/
def mix_real_imaginary_loop (F : FFTImpl) (flag : Nat → Bool) :
    Nat → List (ImageProcessor × ℝ) → (Nat → Nat → ℝ) → (Nat → Nat → ℝ) → ℝ →
    Option ((Nat → Nat → ℝ) × (Nat → Nat → ℝ) × ℝ)
  | _, [], mixed_real, mixed_imag, total_weight =>
      some (mixed_real, mixed_imag, total_weight)
  | k, (processor, weight) :: rest, mixed_real, mixed_imag, total_weight =>
      if flag k then none
      else
        mix_real_imaginary_loop F flag (k + 1) rest
          (fun i j => mixed_real i j + weight * realD F processor i j)
          (fun i j => mixed_imag i j + weight * imagD F processor i j)
          (total_weight + weight)

/-- FTMixer._mix_real_imaginary (lines 498-521): run the loop, divide by
total_weight only when it is positive, reconstruct real + 1j * imaginary. -/
noncomputable def mix_real_imaginary (F : FFTImpl) (flag : Nat → Bool)
    (valid_data : List (ImageProcessor × ℝ)) (shape : Nat × Nat) :
    Option (NDArr ℂ) :=
  match mix_real_imaginary_loop F flag 0 valid_data
      (fun _ _ => 0) (fun _ _ => 0) 0 with
  | none => none
  | some (mixed_real, mixed_imag, total_weight) =>
      let re := if 0 < total_weight
        then fun i j => mixed_real i j / total_weight
        else mixed_real
      let im := if 0 < total_weight
        then fun i j => mixed_imag i j / total_weight
        else mixed_imag
      some ⟨shape, fun i j =>
        ((re i j : ℝ) : ℂ) + Complex.I * ((im i j : ℝ) : ℂ)⟩

/-- Lines 442-471 of FTMixer.mix_components: propagate a cancelled (None)
blend, apply the region mask multiplicatively when a rectangle is given
(mask * mixed_fft, no blending with a base spectrum), poll the flag once
more (poll index n for n valid sources) before the inverse transform, then
ifft2(ifftshift(.)), real part, clip to [0, 255] and cast to uint8. -/
noncomputable def mix_finalize (F : FFTImpl) (flag : Nat → Bool) (n : Nat)
    (ref_shape : Nat × Nat) (rect : Option Rect) (use_inner : Bool) :
    Option (NDArr ℂ) → Option (NDArr ℤ)
  | none => none
  | some mixed =>
      let masked :=
        match rect with
        | some r =>
            let mask := create_region_mask ref_shape r use_inner
            (⟨ref_shape, fun i j => ((mask.data i j : ℝ) : ℂ) * mixed.data i j⟩ :
              NDArr ℂ)
        | none => mixed
      if flag n then none
      else
        let res := F.ifft2 (F.ifftshift masked)
        some ⟨res.shape, fun i j => pyInt (npClip (res.data i j).re 0 255)⟩

/-- FTMixer.mix_components (lines 403-471).  Filter to valid sources (None
when there are none), take the first valid shape as reference, dispatch on
the mode string (the exact string mag_phase selects magnitude/phase mixing,
anything else real/imaginary), then finalize (mask, pre-ifft poll, inverse
transform, clip, quantize). -/
noncomputable def mix_components (F : FFTImpl) (flag : Nat → Bool)
    (processors : List ImageProcessor) (weights : List ℝ) (mode : String)
    (rect : Option Rect) (use_inner : Bool) : Option (NDArr ℤ) :=
  match validData processors weights with
  | [] => none
  | (p0, w0) :: rest =>
      let valid_data := (p0, w0) :: rest
      let ref_shape := p0.shape.getD (0, 0)
      mix_finalize F flag valid_data.length ref_shape rect use_inner
        (if mode = "mag_phase" then
          mix_magnitude_phase F flag valid_data ref_shape
         else
          mix_real_imaginary F flag valid_data ref_shape)

end FTMixer

/-- The mix_worker closure of ft_page.start_mixing (lines 796-802): run
mix_components; write the result into the destination output viewer only
when a result was produced and the flag is observed clear at the final poll
(poll index `length valid_data + 1`, the first poll after the pre-ifft one).
Otherwise the destination viewer is left untouched. -/
noncomputable def mix_worker (F : FFTImpl) (flag : Nat → Bool)
    (processors : List ImageProcessor) (weights : List ℝ) (mode : String)
    (rect : Option Rect) (use_inner : Bool) (output_viewer : ImageViewer) :
    ImageViewer :=
  match FTMixer.mix_components F flag processors weights mode rect use_inner with
  | none => output_viewer
  | some result =>
      if flag ((FTMixer.validData processors weights).length + 1) then output_viewer
      else
        (output_viewer.load_from_array
          (some ⟨result.shape, fun i j => ((result.data i j : ℤ) : ℝ)⟩)).1

/-- ft_page.start_mixing (lines 773-810), validation part: when no input
processor holds an image the callback returns the error status immediately
and no worker is created; otherwise it returns the worker that the
background thread will run. -/
noncomputable def start_mixing (F : FFTImpl) (flag : Nat → Bool)
    (input_processors : List ImageProcessor) (weights : List ℝ) (mode : String)
    (region_mode : String) (rect : Option Rect) :
    Option (ImageViewer → ImageViewer) :=
  if input_processors.all fun p => p.image.isNone then none
  else
    let use_inner := region_mode = "inner"
    some (mix_worker F flag input_processors weights mode rect use_inner)

/-- Mutation steps on one ImageProcessor (the operations ft_page applies to
a cache between mixes). -/
inductive CacheOp
  | load (a : NDArr ℝ)
  | resize (t : Nat × Nat)
  | access

/-- Apply one cache operation, keeping the successor state. -/
noncomputable def applyCacheOp (F : FFTImpl) (L : ResizeImpl)
    (p : ImageProcessor) : CacheOp → ImageProcessor
  | .load a => (p.load_from_array (some a)).1
  | .resize t => (p.resize_to L t).1
  | .access => (p.compute_fft F).1

/-- Run a sequence of cache operations from a freshly created processor. -/
noncomputable def runCacheOps (F : FFTImpl) (L : ResizeImpl)
    (ops : List CacheOp) : ImageProcessor :=
  ops.foldl (applyCacheOp F L) ImageProcessor.init

/-- The SpectrumCache invariant: the cached transform, when present, is the
centered transform of the current image buffer. -/
def CacheCoherent (F : FFTImpl) (p : ImageProcessor) : Prop :=
  p.fft_result = none ∨
    ∃ img, p.image = some img ∧ p.fft_result = some (F.fftshift (F.fft2 img))

/-- Total weight of a valid-source list (what total_weight accumulates to). -/
def weightTotal (valid_data : List (ImageProcessor × ℝ)) : ℝ :=
  (valid_data.map Prod.snd).sum

/-- The magnitude/phase blend exactly as the specification words it: the
weighted sum of the source magnitudes and of the source phases, each divided
by the total weight of the valid sources, reconstructed as
magnitude * exp(i * phase). -/
noncomputable def specMagPhaseBlend (F : FFTImpl)
    (valid_data : List (ImageProcessor × ℝ)) (shape : Nat × Nat) : NDArr ℂ :=
  let W := weightTotal valid_data
  ⟨shape, fun i j =>
    ((((valid_data.map fun pw => pw.2 * magD F pw.1 i j).sum / W : ℝ)) : ℂ) *
      Complex.exp (Complex.I *
        (((valid_data.map fun pw => pw.2 * phaseD F pw.1 i j).sum / W : ℝ) : ℂ))⟩

/-- The real/imaginary blend exactly as the specification words it: the
weighted sum of real parts and of imaginary parts, each divided by the total
weight of the valid sources, reconstructed as real + i * imaginary. -/
noncomputable def specRealImagBlend (F : FFTImpl)
    (valid_data : List (ImageProcessor × ℝ)) (shape : Nat × Nat) : NDArr ℂ :=
  let W := weightTotal valid_data
  ⟨shape, fun i j =>
    ((((valid_data.map fun pw => pw.2 * realD F pw.1 i j).sum / W : ℝ)) : ℂ) +
      Complex.I *
        (((valid_data.map fun pw => pw.2 * imagD F pw.1 i j).sum / W : ℝ) : ℂ)⟩

/- ──────────────────────────────────────────────────────────────────────
Interleaving model of the start-mixing / worker-thread interaction
(ft_page.py lines 773-810).  Worker atomic actions mirror the polls of the
shared threading.Event: reset_cancel at worker entry, one poll per source
accumulation step, one poll before the inverse transform, and the final
poll guarding the write of the destination result slot.  The slot records
which job id last wrote it.
────────────────────────────────────────────────────────────────────── -/

/-- One atomic worker action. -/
inductive WAct
  | reset
  | checkSrc
  | checkPre
  | finalWrite
deriving DecidableEq

/-- A worker thread: its job id, its remaining actions, and whether it has
observed cancellation and discarded its work. -/
structure WorkerSt where
  jid : Nat
  prog : List WAct
  cancelled : Bool
deriving DecidableEq

/-- The full program of a worker mixing nsrc valid sources. -/
def workerProg (nsrc : Nat) : List WAct :=
  WAct.reset :: (List.replicate nsrc WAct.checkSrc ++ [WAct.checkPre, WAct.finalWrite])

/-- Shared system state: the one shared cancellation flag, the destination
result slot (job id of the last writer), and the spawned workers. -/
structure MixerSys where
  flag : Bool
  slot : Option Nat
  workers : List WorkerSt
deriving DecidableEq

/-- System events: the callback thread signalling cancel (ft_mixer.cancel()),
the callback thread spawning a worker (threading.Thread(...).start(), which
the bounded join cannot prevent from overlapping the old worker), and the
scheduler running one atomic action of worker `idx`. -/
inductive SysEv
  | cancelSignal
  | spawn (jid : Nat) (nsrc : Nat)
  | runStep (idx : Nat)
deriving DecidableEq

/-- Execute the next atomic action of one worker against the shared flag and
slot.  A poll that observes the flag set aborts the worker (it returns None
and never writes); finalWrite writes the slot only when the flag is clear. -/
def stepWorker (flag : Bool) (slot : Option Nat) (wk : WorkerSt) :
    Bool × Option Nat × WorkerSt :=
  match wk.prog with
  | [] => (flag, slot, wk)
  | a :: rest =>
      match a with
      | .reset => (false, slot, ⟨wk.jid, rest, wk.cancelled⟩)
      | .checkSrc =>
          if flag then (flag, slot, ⟨wk.jid, [], true⟩)
          else (flag, slot, ⟨wk.jid, rest, wk.cancelled⟩)
      | .checkPre =>
          if flag then (flag, slot, ⟨wk.jid, [], true⟩)
          else (flag, slot, ⟨wk.jid, rest, wk.cancelled⟩)
      | .finalWrite =>
          if flag then (flag, slot, ⟨wk.jid, [], true⟩)
          else (flag, some wk.jid, ⟨wk.jid, [], wk.cancelled⟩)

/-- One system step. -/
def sysStep (s : MixerSys) : SysEv → MixerSys
  | .cancelSignal => ⟨true, s.slot, s.workers⟩
  | .spawn j n => ⟨s.flag, s.slot, s.workers ++ [⟨j, workerProg n, false⟩]⟩
  | .runStep i =>
      match s.workers[i]? with
      | none => s
      | some wk =>
          let r := stepWorker s.flag s.slot wk
          ⟨r.1, r.2.1, s.workers.set i r.2.2⟩

/-- Run a schedule of system events. -/
def sysRun (s : MixerSys) (evs : List SysEv) : MixerSys :=
  evs.foldl sysStep s

/-- The empty system: flag clear, slot never written, no workers. -/
def sysInit : MixerSys :=
  ⟨false, none, []⟩

/-- A schedule realized by the code: job 1 passes its pre-ifft poll, the
callback signals cancel and (after the bounded join times out) spawns job 2;
job 2 resets the shared flag, runs to completion and writes the slot; job 1
then finishes its inverse transform, sees the (reset) flag clear, and
overwrites the slot. -/
def c8Schedule : List SysEv :=
  [SysEv.spawn 1 1, SysEv.runStep 0, SysEv.runStep 0, SysEv.runStep 0,
   SysEv.cancelSignal, SysEv.spawn 2 1,
   SysEv.runStep 1, SysEv.runStep 1, SysEv.runStep 1, SysEv.runStep 1,
   SysEv.runStep 0]

/-- A one-worker system state about to execute its final write. -/
def c8WitState : MixerSys :=
  ⟨false, none, [⟨5, [WAct.finalWrite], false⟩]⟩

/-- A trivial instantiation of the abstract transform bundle (the identity
embedding) used to exercise theorems at concrete inputs. -/
def trivialFFT : FFTImpl :=
  ⟨fun a => ⟨a.shape, fun i j => ((a.data i j : ℝ) : ℂ)⟩, id, id, id⟩

/-- A trivial instantiation of the abstract resampler: constant zero image
of the target shape. -/
def trivialResize : ResizeImpl :=
  ⟨fun _ t => ⟨t, fun _ _ => 0⟩⟩

/-- A concrete 1 x 1 image with sample value 100. -/
def img1 : NDArr ℝ :=
  ⟨(1, 1), fun _ _ => 100⟩

/-- A processor holding img1 with an empty transform cache. -/
def procW : ImageProcessor :=
  ⟨some img1, none, some (1, 1)⟩

/-- A viewer with a freshly created processor (no image loaded). -/
def emptyViewer : ImageViewer :=
  ⟨ImageProcessor.init⟩

/- ──────────────────────────────────────────────────────────────────────
Supporting lemmas
────────────────────────────────────────────────────────────────────── -/

/-- With every poll observing a clear flag, the magnitude/phase loop runs to
completion and accumulates the weighted sums and the total weight. -/
theorem mix_magnitude_phase_loop_run (F : FFTImpl)
    (valid_data : List (ImageProcessor × ℝ)) :
    ∀ (k : Nat) (m0 ph0 : Nat → Nat → ℝ) (tw0 : ℝ),
    FTMixer.mix_magnitude_phase_loop F (fun _ => false) k valid_data m0 ph0 tw0 =
      some (fun i j => m0 i j + (valid_data.map fun pw => pw.2 * magD F pw.1 i j).sum,
            fun i j => ph0 i j + (valid_data.map fun pw => pw.2 * phaseD F pw.1 i j).sum,
            tw0 + weightTotal valid_data) := by
  induction valid_data with
  | nil =>
      intro k m0 ph0 tw0
      simp [FTMixer.mix_magnitude_phase_loop, weightTotal]
  | cons hd tl ih =>
      intro k m0 ph0 tw0
      obtain ⟨p, w⟩ := hd
      rw [FTMixer.mix_magnitude_phase_loop, if_neg Bool.false_ne_true, ih]
      simp only [Option.some.injEq, Prod.mk.injEq, List.map_cons, List.sum_cons]
      refine ⟨?_, ?_, ?_⟩
      · funext i j; ring
      · funext i j; ring
      · simp only [weightTotal, List.map_cons, List.sum_cons]; ring

/-- With every poll observing a clear flag, the real/imaginary loop runs to
completion and accumulates the weighted sums and the total weight. -/
theorem mix_real_imaginary_loop_run (F : FFTImpl)
    (valid_data : List (ImageProcessor × ℝ)) :
    ∀ (k : Nat) (re0 im0 : Nat → Nat → ℝ) (tw0 : ℝ),
    FTMixer.mix_real_imaginary_loop F (fun _ => false) k valid_data re0 im0 tw0 =
      some (fun i j => re0 i j + (valid_data.map fun pw => pw.2 * realD F pw.1 i j).sum,
            fun i j => im0 i j + (valid_data.map fun pw => pw.2 * imagD F pw.1 i j).sum,
            tw0 + weightTotal valid_data) := by
  induction valid_data with
  | nil =>
      intro k re0 im0 tw0
      simp [FTMixer.mix_real_imaginary_loop, weightTotal]
  | cons hd tl ih =>
      intro k re0 im0 tw0
      obtain ⟨p, w⟩ := hd
      rw [FTMixer.mix_real_imaginary_loop, if_neg Bool.false_ne_true, ih]
      simp only [Option.some.injEq, Prod.mk.injEq, List.map_cons, List.sum_cons]
      refine ⟨?_, ?_, ?_⟩
      · funext i j; ring
      · funext i j; ring
      · simp only [weightTotal, List.map_cons, List.sum_cons]; ring

/-- The magnitude/phase loop aborts with None exactly when some poll during
the per-source steps observes the flag set. -/
theorem mix_magnitude_phase_loop_none_iff (F : FFTImpl) (flag : Nat → Bool)
    (valid_data : List (ImageProcessor × ℝ)) :
    ∀ (k : Nat) (m0 ph0 : Nat → Nat → ℝ) (tw0 : ℝ),
    (FTMixer.mix_magnitude_phase_loop F flag k valid_data m0 ph0 tw0 = none ↔
      ∃ d, d < valid_data.length ∧ flag (k + d) = true) := by
  induction valid_data with
  | nil =>
      intro k m0 ph0 tw0
      simp [FTMixer.mix_magnitude_phase_loop]
  | cons hd tl ih =>
      intro k m0 ph0 tw0
      obtain ⟨p, w⟩ := hd
      rw [FTMixer.mix_magnitude_phase_loop]
      by_cases hf : flag k = true
      · rw [if_pos hf]
        constructor
        · intro _; exact ⟨0, by simp, by simpa using hf⟩
        · intro _; rfl
      · rw [if_neg hf, ih]
        constructor
        · rintro ⟨d, hd, hfl⟩
          refine ⟨d + 1, by simpa using Nat.succ_lt_succ hd, ?_⟩
          have : k + (d + 1) = k + 1 + d := by omega
          rw [this]; exact hfl
        · rintro ⟨d, hd, hfl⟩
          cases d with
          | zero => simp at hfl; exact absurd hfl hf
          | succ d =>
              simp only [List.length_cons] at hd
              refine ⟨d, by omega, ?_⟩
              have : k + 1 + d = k + (d + 1) := by omega
              rw [this]; exact hfl

/-- The real/imaginary loop aborts with None exactly when some poll during
the per-source steps observes the flag set. -/
theorem mix_real_imaginary_loop_none_iff (F : FFTImpl) (flag : Nat → Bool)
    (valid_data : List (ImageProcessor × ℝ)) :
    ∀ (k : Nat) (re0 im0 : Nat → Nat → ℝ) (tw0 : ℝ),
    (FTMixer.mix_real_imaginary_loop F flag k valid_data re0 im0 tw0 = none ↔
      ∃ d, d < valid_data.length ∧ flag (k + d) = true) := by
  induction valid_data with
  | nil =>
      intro k re0 im0 tw0
      simp [FTMixer.mix_real_imaginary_loop]
  | cons hd tl ih =>
      intro k re0 im0 tw0
      obtain ⟨p, w⟩ := hd
      rw [FTMixer.mix_real_imaginary_loop]
      by_cases hf : flag k = true
      · rw [if_pos hf]
        constructor
        · intro _; exact ⟨0, by simp, by simpa using hf⟩
        · intro _; rfl
      · rw [if_neg hf, ih]
        constructor
        · rintro ⟨d, hd, hfl⟩
          refine ⟨d + 1, by simpa using Nat.succ_lt_succ hd, ?_⟩
          have : k + (d + 1) = k + 1 + d := by omega
          rw [this]; exact hfl
        · rintro ⟨d, hd, hfl⟩
          cases d with
          | zero => simp at hfl; exact absurd hfl hf
          | succ d =>
              simp only [List.length_cons] at hd
              refine ⟨d, by omega, ?_⟩
              have : k + 1 + d = k + (d + 1) := by omega
              rw [this]; exact hfl

/-- _mix_magnitude_phase returns None exactly when some per-source poll
observes the flag set. -/
theorem mix_magnitude_phase_none_iff (F : FFTImpl) (flag : Nat → Bool)
    (valid_data : List (ImageProcessor × ℝ)) (shape : Nat × Nat) :
    FTMixer.mix_magnitude_phase F flag valid_data shape = none ↔
      ∃ d, d < valid_data.length ∧ flag d = true := by
  have hl := mix_magnitude_phase_loop_none_iff F flag valid_data 0
    (fun _ _ => 0) (fun _ _ => 0) 0
  simp only [Nat.zero_add] at hl
  unfold FTMixer.mix_magnitude_phase
  rcases h : FTMixer.mix_magnitude_phase_loop F flag 0 valid_data
      (fun _ _ => 0) (fun _ _ => 0) 0 with _ | ⟨m, ph, tw⟩
  · exact iff_of_true rfl (hl.mp h)
  · constructor
    · intro hc; simp at hc
    · intro hx
      exact absurd (hl.mpr hx) (by rw [h]; simp)

/-- _mix_real_imaginary returns None exactly when some per-source poll
observes the flag set. -/
theorem mix_real_imaginary_none_iff (F : FFTImpl) (flag : Nat → Bool)
    (valid_data : List (ImageProcessor × ℝ)) (shape : Nat × Nat) :
    FTMixer.mix_real_imaginary F flag valid_data shape = none ↔
      ∃ d, d < valid_data.length ∧ flag d = true := by
  have hl := mix_real_imaginary_loop_none_iff F flag valid_data 0
    (fun _ _ => 0) (fun _ _ => 0) 0
  simp only [Nat.zero_add] at hl
  unfold FTMixer.mix_real_imaginary
  rcases h : FTMixer.mix_real_imaginary_loop F flag 0 valid_data
      (fun _ _ => 0) (fun _ _ => 0) 0 with _ | ⟨m, im, tw⟩
  · exact iff_of_true rfl (hl.mp h)
  · constructor
    · intro hc; simp at hc
    · intro hx
      exact absurd (hl.mpr hx) (by rw [h]; simp)

/-- mix_finalize yields None exactly when its input blend is None or the
pre-ifft poll observes the flag set. -/
theorem mix_finalize_none_iff (F : FFTImpl) (flag : Nat → Bool) (n : Nat)
    (ref_shape : Nat × Nat) (rect : Option Rect) (use_inner : Bool)
    (ob : Option (NDArr ℂ)) :
    FTMixer.mix_finalize F flag n ref_shape rect use_inner ob = none ↔
      (ob = none ∨ flag n = true) := by
  rcases ob with _ | mixed
  · simp [FTMixer.mix_finalize]
  · by_cases hf : flag n = true
    · simp [FTMixer.mix_finalize, hf]
    · simp [FTMixer.mix_finalize, hf]

/-- Unfolding mix_components when the valid-source filter is nonempty. -/
theorem mix_components_cons (F : FFTImpl) (flag : Nat → Bool)
    (processors : List ImageProcessor) (weights : List ℝ) (mode : String)
    (rect : Option Rect) (use_inner : Bool) (p0 : ImageProcessor) (w0 : ℝ)
    (rest : List (ImageProcessor × ℝ))
    (h : FTMixer.validData processors weights = (p0, w0) :: rest) :
    FTMixer.mix_components F flag processors weights mode rect use_inner =
      FTMixer.mix_finalize F flag ((p0, w0) :: rest).length (p0.shape.getD (0, 0))
        rect use_inner
        (if mode = "mag_phase" then
          FTMixer.mix_magnitude_phase F flag ((p0, w0) :: rest) (p0.shape.getD (0, 0))
         else
          FTMixer.mix_real_imaginary F flag ((p0, w0) :: rest) (p0.shape.getD (0, 0))) := by
  rw [FTMixer.mix_components, h]

/-- Unfolding mix_components when no source holds an image. -/
theorem mix_components_nil (F : FFTImpl) (flag : Nat → Bool)
    (processors : List ImageProcessor) (weights : List ℝ) (mode : String)
    (rect : Option Rect) (use_inner : Bool)
    (h : FTMixer.validData processors weights = []) :
    FTMixer.mix_components F flag processors weights mode rect use_inner = none := by
  rw [FTMixer.mix_components, h]

/-- compute_fft returns a value whenever an image is loaded. -/
theorem compute_fft_isSome (F : FFTImpl) (p : ImageProcessor) (img : NDArr ℝ)
    (himg : p.image = some img) :
    ∃ z, (p.compute_fft F).2 = some z := by
  rw [ImageProcessor.compute_fft, himg]
  rcases p.fft_result with _ | r
  · exact ⟨_, rfl⟩
  · exact ⟨r, rfl⟩

/-- On a coherent processor holding an image, the transform value the mixer
reads is the centered transform of that image (whether cached or computed). -/
theorem fftValD_of_coherent (F : FFTImpl) (p : ImageProcessor) (img : NDArr ℝ)
    (hcoh : CacheCoherent F p) (himg : p.image = some img) :
    p.fftValD F = F.fftshift (F.fft2 img) := by
  rw [ImageProcessor.fftValD, ImageProcessor.compute_fft, himg]
  rcases hcoh with hnone | ⟨img2, himg2, hfr⟩
  · rw [hnone]
    rfl
  · rw [himg2] at himg
    injection himg with himg
    subst himg
    rw [hfr]
    rfl


/-- A list of nonnegative reals with zero sum is all zeros. -/
theorem all_zero_of_sum_zero :
    ∀ (l : List ℝ), (∀ x ∈ l, 0 ≤ x) → l.sum = 0 → ∀ x ∈ l, x = 0 := by
  intro l
  induction l with
  | nil => intro _ _ x hx; exact absurd hx (List.not_mem_nil x)
  | cons a l ih =>
      intro hnn hs x hx
      have ha : 0 ≤ a := hnn a (List.mem_cons_self a l)
      have hl : 0 ≤ l.sum := List.sum_nonneg fun y hy => hnn y (List.mem_cons_of_mem a hy)
      rw [List.sum_cons] at hs
      have ha0 : a = 0 := by linarith
      have hs0 : l.sum = 0 := by linarith
      rcases List.mem_cons.mp hx with h | h
      · rw [h, ha0]
      · exact ih (fun y hy => hnn y (List.mem_cons_of_mem a hy)) hs0 x h

/- ──────────────────────────────────────────────────────────────────────
Claim theorems
────────────────────────────────────────────────────────────────────── -/

/-- C1: with a positive total weight and no cancellation, the blended
spectrum is exactly the specification formula in each mode — the weighted
sum of the source magnitudes and phases (resp. real and imaginary parts),
each divided by the total weight of the valid sources, reconstructed as
magnitude * exp(i * phase) (resp. real + i * imaginary); and a source
without a loaded image is dropped by the valid-source filter, contributing
neither components nor weight. -/
theorem blend_matches_spec_formulas (F : FFTImpl)
    (valid_data : List (ImageProcessor × ℝ)) (shape : Nat × Nat)
    (procs : List ImageProcessor) (ws : List ℝ) (q : ImageProcessor) (w : ℝ)
    (hW : 0 < weightTotal valid_data) (hlen : procs.length = ws.length)
    (hq : q.image = none) :
    FTMixer.mix_magnitude_phase F (fun _ => false) valid_data shape =
      some (specMagPhaseBlend F valid_data shape)
  ∧ FTMixer.mix_real_imaginary F (fun _ => false) valid_data shape =
      some (specRealImagBlend F valid_data shape)
  ∧ FTMixer.validData (procs ++ [q]) (ws ++ [w]) = FTMixer.validData procs ws := by
  refine ⟨?_, ?_, ?_⟩
  · have hrun : FTMixer.mix_magnitude_phase_loop F (fun _ => false) 0 valid_data
        (fun _ _ => 0) (fun _ _ => 0) 0 =
        some (fun i j => (valid_data.map fun pw => pw.2 * magD F pw.1 i j).sum,
              fun i j => (valid_data.map fun pw => pw.2 * phaseD F pw.1 i j).sum,
              weightTotal valid_data) := by
      rw [mix_magnitude_phase_loop_run]
      simp
    unfold FTMixer.mix_magnitude_phase
    simp only [hrun]
    rw [if_pos hW, if_pos hW]
    rfl
  · have hrun : FTMixer.mix_real_imaginary_loop F (fun _ => false) 0 valid_data
        (fun _ _ => 0) (fun _ _ => 0) 0 =
        some (fun i j => (valid_data.map fun pw => pw.2 * realD F pw.1 i j).sum,
              fun i j => (valid_data.map fun pw => pw.2 * imagD F pw.1 i j).sum,
              weightTotal valid_data) := by
      rw [mix_real_imaginary_loop_run]
      simp
    unfold FTMixer.mix_real_imaginary
    simp only [hrun]
    rw [if_pos hW, if_pos hW]
    rfl
  · unfold FTMixer.validData
    rw [List.zip_append hlen, List.filter_append]
    simp [hq]

/-- C1 witness: the blend formulas and filter behavior at a concrete single
source of weight 1. -/
theorem blend_matches_spec_formulas_witness :
    0 < weightTotal [(procW, (1 : ℝ))]
  ∧ ([] : List ImageProcessor).length = ([] : List ℝ).length
  ∧ ImageProcessor.init.image = none
  ∧ (FTMixer.mix_magnitude_phase trivialFFT (fun _ => false) [(procW, (1 : ℝ))] (1, 1) =
        some (specMagPhaseBlend trivialFFT [(procW, (1 : ℝ))] (1, 1))
    ∧ FTMixer.mix_real_imaginary trivialFFT (fun _ => false) [(procW, (1 : ℝ))] (1, 1) =
        some (specRealImagBlend trivialFFT [(procW, (1 : ℝ))] (1, 1))
    ∧ FTMixer.validData ([] ++ [ImageProcessor.init]) ([] ++ [(0 : ℝ)]) =
        FTMixer.validData [] []) :=
  ⟨by simp [weightTotal], rfl, rfl,
    blend_matches_spec_formulas trivialFFT [(procW, 1)] (1, 1) [] [] ImageProcessor.init 0
      (by simp [weightTotal]) rfl rfl⟩

/-- C5: a mix requested when no source holds an image is rejected
synchronously by start_mixing (no worker is created), the mixer itself
reports the no-valid-sources failure (None), and the destination viewer is
never touched — no partial result is produced. -/
theorem no_valid_sources_rejected (F : FFTImpl) (flag : Nat → Bool)
    (procs : List ImageProcessor) (ws : List ℝ) (mode region_mode : String)
    (rect : Option Rect) (use_inner : Bool)
    (h : ∀ p ∈ procs, p.image = none) :
    start_mixing F flag procs ws mode region_mode rect = none
  ∧ FTMixer.mix_components F flag procs ws mode rect use_inner = none
  ∧ ∀ outv : ImageViewer, mix_worker F flag procs ws mode rect use_inner outv = outv := by
  have hvd : FTMixer.validData procs ws = [] := by
    unfold FTMixer.validData
    apply List.filter_eq_nil_iff.mpr
    intro pw hpw
    obtain ⟨p, wt⟩ := pw
    have hp : p ∈ procs := (List.of_mem_zip hpw).1
    simp [h p hp]
  refine ⟨?_, mix_components_nil F flag procs ws mode rect use_inner hvd, ?_⟩
  · unfold start_mixing
    rw [if_pos (List.all_eq_true.mpr fun p hp => by rw [h p hp]; rfl)]
  · intro outv
    unfold mix_worker
    rw [mix_components_nil F flag procs ws mode rect use_inner hvd]

/-- C5 witness: a single empty processor. -/
theorem no_valid_sources_rejected_witness :
    (∀ p ∈ [ImageProcessor.init], p.image = none)
  ∧ (start_mixing trivialFFT (fun _ => false) [ImageProcessor.init] [1] "mag_phase"
        "inner" none = none
    ∧ FTMixer.mix_components trivialFFT (fun _ => false) [ImageProcessor.init] [1]
        "mag_phase" none true = none
    ∧ ∀ outv : ImageViewer,
        mix_worker trivialFFT (fun _ => false) [ImageProcessor.init] [1] "mag_phase"
          none true outv = outv) :=
  ⟨by intro p hp; simp at hp; subst hp; rfl,
    no_valid_sources_rejected trivialFFT (fun _ => false) [ImageProcessor.init] [1]
      "mag_phase" "inner" none true
      (by intro p hp; simp at hp; subst hp; rfl)⟩

/-- C6: when the weights of the valid sources are nonnegative and their
total is exactly zero, the accumulation loops complete with the component
arrays still all-zero and total weight zero, the guarded division is
skipped, and both mixing modes return the all-zero blended spectrum (a
well-defined value: no division by zero is evaluated). -/
theorem zero_total_weight_mix (F : FFTImpl)
    (valid_data : List (ImageProcessor × ℝ)) (shape : Nat × Nat)
    (hnn : ∀ pw ∈ valid_data, 0 ≤ pw.2) (hz : weightTotal valid_data = 0) :
    FTMixer.mix_magnitude_phase_loop F (fun _ => false) 0 valid_data
        (fun _ _ => 0) (fun _ _ => 0) 0 =
      some (fun _ _ => 0, fun _ _ => 0, 0)
  ∧ FTMixer.mix_real_imaginary_loop F (fun _ => false) 0 valid_data
        (fun _ _ => 0) (fun _ _ => 0) 0 =
      some (fun _ _ => 0, fun _ _ => 0, 0)
  ∧ FTMixer.mix_magnitude_phase F (fun _ => false) valid_data shape =
      some ⟨shape, fun _ _ => 0⟩
  ∧ FTMixer.mix_real_imaginary F (fun _ => false) valid_data shape =
      some ⟨shape, fun _ _ => 0⟩ := by
  have hww : ∀ pw ∈ valid_data, pw.2 = 0 := by
    intro pw hpw
    exact all_zero_of_sum_zero (valid_data.map Prod.snd)
      (by
        intro x hx
        obtain ⟨pw2, hpw2, rfl⟩ := List.mem_map.mp hx
        exact hnn pw2 hpw2)
      hz pw.2 (List.mem_map_of_mem Prod.snd hpw)
  have hsum0 : ∀ (f : ImageProcessor → Nat → Nat → ℝ) (i j : Nat),
      (valid_data.map fun pw => pw.2 * f pw.1 i j).sum = 0 := by
    intro f i j
    apply List.sum_eq_zero
    intro x hx
    obtain ⟨pw, hpw, rfl⟩ := List.mem_map.mp hx
    rw [hww pw hpw, zero_mul]
  have h1 : FTMixer.mix_magnitude_phase_loop F (fun _ => false) 0 valid_data
      (fun _ _ => 0) (fun _ _ => 0) 0 = some (fun _ _ => 0, fun _ _ => 0, 0) := by
    rw [mix_magnitude_phase_loop_run]
    simp only [Option.some.injEq, Prod.mk.injEq]
    refine ⟨funext fun i => funext fun j => by rw [hsum0]; ring,
            funext fun i => funext fun j => by rw [hsum0]; ring,
            by rw [hz]; ring⟩
  have h2 : FTMixer.mix_real_imaginary_loop F (fun _ => false) 0 valid_data
      (fun _ _ => 0) (fun _ _ => 0) 0 = some (fun _ _ => 0, fun _ _ => 0, 0) := by
    rw [mix_real_imaginary_loop_run]
    simp only [Option.some.injEq, Prod.mk.injEq]
    refine ⟨funext fun i => funext fun j => by rw [hsum0]; ring,
            funext fun i => funext fun j => by rw [hsum0]; ring,
            by rw [hz]; ring⟩
  refine ⟨h1, h2, ?_, ?_⟩
  · unfold FTMixer.mix_magnitude_phase
    simp only [h1]
    simp
  · unfold FTMixer.mix_real_imaginary
    simp only [h2]
    simp

/-- C6 witness: one valid source carrying weight 0. -/
theorem zero_total_weight_mix_witness :
    (∀ pw ∈ [(procW, (0 : ℝ))], 0 ≤ pw.2)
  ∧ weightTotal [(procW, (0 : ℝ))] = 0
  ∧ FTMixer.mix_magnitude_phase trivialFFT (fun _ => false) [(procW, (0 : ℝ))] (1, 1) =
      some ⟨(1, 1), fun _ _ => 0⟩ :=
  ⟨by intro pw hpw; simp at hpw; subst hpw; exact le_refl 0,
    by simp [weightTotal],
    (zero_total_weight_mix trivialFFT [(procW, 0)] (1, 1)
      (by intro pw hpw; simp at hpw; subst hpw; exact le_refl 0)
      (by simp [weightTotal])).2.2.1⟩

/-- C10: any mode string other than the exact string mag_phase — including
the specification names magnitude_phase and real_imaginary — is silently
routed to real/imaginary mixing; the mode argument is never validated and
no error is produced. -/
theorem mode_fallback_real_imag (F : FFTImpl) (flag : Nat → Bool)
    (procs : List ImageProcessor) (ws : List ℝ) (rect : Option Rect)
    (use_inner : Bool) (mode : String) (h : mode ≠ "mag_phase") :
    FTMixer.mix_components F flag procs ws mode rect use_inner =
      FTMixer.mix_components F flag procs ws "real_imag" rect use_inner := by
  rcases hv : FTMixer.validData procs ws with _ | ⟨⟨p0, w0⟩, rest⟩
  · rw [mix_components_nil F flag procs ws mode rect use_inner hv,
        mix_components_nil F flag procs ws "real_imag" rect use_inner hv]
  · rw [mix_components_cons F flag procs ws mode rect use_inner p0 w0 rest hv,
        mix_components_cons F flag procs ws "real_imag" rect use_inner p0 w0 rest hv,
        if_neg h, if_neg (by decide : ¬(("real_imag" : String) = "mag_phase"))]

/-- C10 witness: the specification name magnitude_phase falls through to
real/imaginary mixing. -/
theorem mode_fallback_real_imag_witness :
    ("magnitude_phase" : String) ≠ "mag_phase"
  ∧ FTMixer.mix_components trivialFFT (fun _ => false) [procW] [1] "magnitude_phase"
        none true =
      FTMixer.mix_components trivialFFT (fun _ => false) [procW] [1] "real_imag"
        none true :=
  ⟨by decide,
    mode_fallback_real_imag trivialFFT (fun _ => false) [procW] [1] none true
      "magnitude_phase" (by decide)⟩


/-- Coherence of the cached transform is preserved by every cache operation. -/
theorem cacheCoherent_applyOp (F : FFTImpl) (L : ResizeImpl) (p : ImageProcessor)
    (op : CacheOp) (h : CacheCoherent F p) :
    CacheCoherent F (applyCacheOp F L p op) := by
  cases op with
  | load a =>
      left
      rfl
  | resize t =>
      rcases himg : p.image with _ | img
      · have hst : (p.resize_to L t).1 = p := by
          unfold ImageProcessor.resize_to; rw [himg]
        show CacheCoherent F (p.resize_to L t).1
        rw [hst]
        exact h
      · left
        show (p.resize_to L t).1.fft_result = none
        unfold ImageProcessor.resize_to
        rw [himg]
  | access =>
      rcases himg : p.image with _ | img
      · have hst : (p.compute_fft F).1 = p := by
          unfold ImageProcessor.compute_fft; rw [himg]
        show CacheCoherent F (p.compute_fft F).1
        rw [hst]
        exact h
      · rcases hf : p.fft_result with _ | r
        · have hst : (p.compute_fft F).1 =
              ⟨p.image, some (F.fftshift (F.fft2 img)), p.shape⟩ := by
            unfold ImageProcessor.compute_fft; rw [himg, hf]
          show CacheCoherent F (p.compute_fft F).1
          rw [hst]
          right
          exact ⟨img, himg, rfl⟩
        · have hst : (p.compute_fft F).1 = p := by
            unfold ImageProcessor.compute_fft; rw [himg, hf]
          show CacheCoherent F (p.compute_fft F).1
          rw [hst]
          exact h

/-- Coherence is preserved by any sequence of cache operations. -/
theorem cacheCoherent_run (F : FFTImpl) (L : ResizeImpl) :
    ∀ (ops : List CacheOp) (p : ImageProcessor), CacheCoherent F p →
      CacheCoherent F (ops.foldl (applyCacheOp F L) p) := by
  intro ops
  induction ops with
  | nil => intro p h; exact h
  | cons op ops ih => intro p h; exact ih _ (cacheCoherent_applyOp F L p op h)

/-- C2: for a mix over at least one valid source, the result is Cancelled
(None) exactly when the shared flag is observed set at one of the n+1 polls
(one at the head of each of the n per-source accumulation steps, one more
immediately before the inverse transform); and the worker either leaves the
destination viewer untouched, or — only on a produced result with the final
poll observing the flag clear — performs the single full write of the
result.  No partly-written destination state exists. -/
theorem mix_cancellation_protocol (F : FFTImpl) (flag : Nat → Bool)
    (procs : List ImageProcessor) (ws : List ℝ) (mode : String)
    (rect : Option Rect) (use_inner : Bool)
    (hv : FTMixer.validData procs ws ≠ []) :
    (FTMixer.mix_components F flag procs ws mode rect use_inner = none ↔
       ∃ k, k ≤ (FTMixer.validData procs ws).length ∧ flag k = true)
  ∧ ∀ outv : ImageViewer,
      mix_worker F flag procs ws mode rect use_inner outv = outv ∨
      ∃ result,
        FTMixer.mix_components F flag procs ws mode rect use_inner = some result ∧
        flag ((FTMixer.validData procs ws).length + 1) = false ∧
        mix_worker F flag procs ws mode rect use_inner outv =
          (outv.load_from_array
            (some ⟨result.shape, fun i j => ((result.data i j : ℤ) : ℝ)⟩)).1 := by
  constructor
  · rcases hvd : FTMixer.validData procs ws with _ | ⟨⟨p0, w0⟩, rest⟩
    · exact absurd hvd hv
    · have hexists :
          ((∃ d, d < ((p0, w0) :: rest).length ∧ flag d = true) ∨
            flag ((p0, w0) :: rest).length = true) ↔
          ∃ k, k ≤ ((p0, w0) :: rest).length ∧ flag k = true := by
        constructor
        · rintro (⟨d, hd, hfd⟩ | hfn)
          · exact ⟨d, Nat.le_of_lt hd, hfd⟩
          · exact ⟨((p0, w0) :: rest).length, Nat.le_refl _, hfn⟩
        · rintro ⟨k, hk, hfk⟩
          rcases Nat.lt_or_ge k ((p0, w0) :: rest).length with h | h
          · exact Or.inl ⟨k, h, hfk⟩
          · have : k = ((p0, w0) :: rest).length := Nat.le_antisymm hk h
            subst this
            exact Or.inr hfk
      rw [mix_components_cons F flag procs ws mode rect use_inner p0 w0 rest hvd,
        mix_finalize_none_iff]
      by_cases hm : mode = "mag_phase"
      · rw [if_pos hm, mix_magnitude_phase_none_iff]
        exact hexists
      · rw [if_neg hm, mix_real_imaginary_none_iff]
        exact hexists
  · intro outv
    rcases hm : FTMixer.mix_components F flag procs ws mode rect use_inner with _ | result
    · left
      simp only [mix_worker, hm]
    · by_cases hf : flag ((FTMixer.validData procs ws).length + 1) = true
      · left
        simp only [mix_worker, hm]
        rw [if_pos hf]
      · right
        refine ⟨result, rfl, by simpa using hf, ?_⟩
        simp only [mix_worker, hm]
        rw [if_neg hf]

/-- C2 witness: one valid source, no cancellation observed. -/
theorem mix_cancellation_protocol_witness :
    FTMixer.validData [procW] [(1 : ℝ)] ≠ []
  ∧ ((FTMixer.mix_components trivialFFT (fun _ => false) [procW] [(1 : ℝ)] "mag_phase"
        none true = none ↔
        ∃ k, k ≤ (FTMixer.validData [procW] [(1 : ℝ)]).length ∧ (fun _ => false) k = true)
    ∧ ∀ outv : ImageViewer,
        mix_worker trivialFFT (fun _ => false) [procW] [(1 : ℝ)] "mag_phase" none true
            outv = outv ∨
        ∃ result,
          FTMixer.mix_components trivialFFT (fun _ => false) [procW] [(1 : ℝ)]
              "mag_phase" none true = some result ∧
          (fun _ => false) ((FTMixer.validData [procW] [(1 : ℝ)]).length + 1) = false ∧
          mix_worker trivialFFT (fun _ => false) [procW] [(1 : ℝ)] "mag_phase" none true
              outv =
            (outv.load_from_array
              (some ⟨result.shape, fun i j => ((result.data i j : ℤ) : ℝ)⟩)).1) :=
  ⟨by simp [FTMixer.validData, procW],
    mix_cancellation_protocol trivialFFT (fun _ => false) [procW] [(1 : ℝ)] "mag_phase"
      none true (by simp [FTMixer.validData, procW])⟩

/-- C3: along any operation sequence from a fresh cache, the cached
transform, when present, is the centered transform of the current image
buffer; a load of an array and a resize leave the cache empty; the value
compute_fft returns is exactly the transform of the current buffer
(computed and cached on first access); and an immediately repeated
compute_fft returns the identical cached array and the identical state. -/
theorem spectrum_cache_coherent (F : FFTImpl) (L : ResizeImpl) (ops : List CacheOp) :
    CacheCoherent F (runCacheOps F L ops)
  ∧ (∀ a, ((runCacheOps F L ops).load_from_array (some a)).1.fft_result = none)
  ∧ (∀ t, ((runCacheOps F L ops).resize_to L t).1.fft_result = none)
  ∧ ((runCacheOps F L ops).compute_fft F).2 =
      ((runCacheOps F L ops).image).map (fun img => F.fftshift (F.fft2 img))
  ∧ (((runCacheOps F L ops).compute_fft F).1.compute_fft F =
      (((runCacheOps F L ops).compute_fft F).1,
        ((runCacheOps F L ops).compute_fft F).2)) := by
  have hc : CacheCoherent F (runCacheOps F L ops) :=
    cacheCoherent_run F L ops ImageProcessor.init (Or.inl rfl)
  refine ⟨hc, fun a => rfl, ?_, ?_, ?_⟩
  · intro t
    rcases himg : (runCacheOps F L ops).image with _ | img
    · have hst : ((runCacheOps F L ops).resize_to L t).1 = runCacheOps F L ops := by
        unfold ImageProcessor.resize_to; rw [himg]
      rw [hst]
      rcases hc with h | ⟨img2, himg2, _⟩
      · exact h
      · rw [himg2] at himg
        simp at himg
    · unfold ImageProcessor.resize_to
      rw [himg]
  · rcases himg : (runCacheOps F L ops).image with _ | img
    · have hst : (runCacheOps F L ops).compute_fft F = (runCacheOps F L ops, none) := by
        unfold ImageProcessor.compute_fft; rw [himg]
      rw [hst]
      rfl
    · rcases hf : (runCacheOps F L ops).fft_result with _ | r
      · have hst : (runCacheOps F L ops).compute_fft F =
            (⟨some img, some (F.fftshift (F.fft2 img)),
              (runCacheOps F L ops).shape⟩, some (F.fftshift (F.fft2 img))) := by
          unfold ImageProcessor.compute_fft; rw [himg, hf]
        rw [hst]
        rfl
      · rcases hc with h | ⟨img2, himg2, hfr2⟩
        · rw [h] at hf
          simp at hf
        · rw [himg2] at himg
          injection himg with he
          subst he
          have hst : (runCacheOps F L ops).compute_fft F = (runCacheOps F L ops, some r) := by
            unfold ImageProcessor.compute_fft; rw [himg2, hf]
          rw [hfr2] at hf
          injection hf with hf
          rw [hst, ← hf]
          rfl
  · rcases himg : (runCacheOps F L ops).image with _ | img
    · have hst : (runCacheOps F L ops).compute_fft F = (runCacheOps F L ops, none) := by
        unfold ImageProcessor.compute_fft; rw [himg]
      rw [hst]
      exact hst
    · rcases hf : (runCacheOps F L ops).fft_result with _ | r
      · have hst : (runCacheOps F L ops).compute_fft F =
            (⟨some img, some (F.fftshift (F.fft2 img)),
              (runCacheOps F L ops).shape⟩, some (F.fftshift (F.fft2 img))) := by
          unfold ImageProcessor.compute_fft; rw [himg, hf]
        rw [hst]
        rfl
      · have hst : (runCacheOps F L ops).compute_fft F = (runCacheOps F L ops, some r) := by
          unfold ImageProcessor.compute_fft; rw [himg, hf]
        rw [hst]
        exact hst

/-- C4: for a rectangle with normalized coordinates in [0, 1], the pixel
bounds are the floors of coordinate * dimension (int() truncation equals
floor on these nonnegative values), the clamping yields
0 <= xlo <= xhi <= width and 0 <= ylo <= yhi <= height, and the mask is
1.0 on the cells inside the clamped rectangle and 0.0 elsewhere for inner
polarity, the complement for outer polarity. -/
theorem region_mask_spec (shape : Nat × Nat) (rect : Rect)
    (hx0 : 0 ≤ rect.x0) (hx0le : rect.x0 ≤ 1)
    (hy0 : 0 ≤ rect.y0) (hy0le : rect.y0 ≤ 1)
    (hx1 : 0 ≤ rect.x1) (hx1le : rect.x1 ≤ 1)
    (hy1 : 0 ≤ rect.y1) (hy1le : rect.y1 ≤ 1) :
    FTMixer.region_pixel_bounds shape rect =
      (max 0 (min ⌊rect.x0 * (shape.2 : ℝ)⌋ ⌊rect.x1 * (shape.2 : ℝ)⌋),
       min (shape.2 : ℤ) (max ⌊rect.x0 * (shape.2 : ℝ)⌋ ⌊rect.x1 * (shape.2 : ℝ)⌋),
       max 0 (min ⌊rect.y0 * (shape.1 : ℝ)⌋ ⌊rect.y1 * (shape.1 : ℝ)⌋),
       min (shape.1 : ℤ) (max ⌊rect.y0 * (shape.1 : ℝ)⌋ ⌊rect.y1 * (shape.1 : ℝ)⌋))
  ∧ (0 ≤ (FTMixer.region_pixel_bounds shape rect).1
    ∧ (FTMixer.region_pixel_bounds shape rect).1 ≤
        (FTMixer.region_pixel_bounds shape rect).2.1
    ∧ (FTMixer.region_pixel_bounds shape rect).2.1 ≤ (shape.2 : ℤ))
  ∧ (0 ≤ (FTMixer.region_pixel_bounds shape rect).2.2.1
    ∧ (FTMixer.region_pixel_bounds shape rect).2.2.1 ≤
        (FTMixer.region_pixel_bounds shape rect).2.2.2
    ∧ (FTMixer.region_pixel_bounds shape rect).2.2.2 ≤ (shape.1 : ℤ))
  ∧ ∀ i j : Nat,
      (FTMixer.create_region_mask shape rect true).data i j =
        (if (FTMixer.region_pixel_bounds shape rect).2.2.1 ≤ (i : ℤ)
            ∧ (i : ℤ) < (FTMixer.region_pixel_bounds shape rect).2.2.2
            ∧ (FTMixer.region_pixel_bounds shape rect).1 ≤ (j : ℤ)
            ∧ (j : ℤ) < (FTMixer.region_pixel_bounds shape rect).2.1
         then 1 else 0)
    ∧ (FTMixer.create_region_mask shape rect false).data i j =
        (if (FTMixer.region_pixel_bounds shape rect).2.2.1 ≤ (i : ℤ)
            ∧ (i : ℤ) < (FTMixer.region_pixel_bounds shape rect).2.2.2
            ∧ (FTMixer.region_pixel_bounds shape rect).1 ≤ (j : ℤ)
            ∧ (j : ℤ) < (FTMixer.region_pixel_bounds shape rect).2.1
         then 0 else 1) := by
  have hw : (0 : ℝ) ≤ (shape.2 : ℝ) := Nat.cast_nonneg _
  have hh : (0 : ℝ) ≤ (shape.1 : ℝ) := Nat.cast_nonneg _
  have e0 : pyInt (rect.x0 * (shape.2 : ℝ)) = ⌊rect.x0 * (shape.2 : ℝ)⌋ := by
    unfold pyInt; rw [if_pos (mul_nonneg hx0 hw)]
  have e1 : pyInt (rect.x1 * (shape.2 : ℝ)) = ⌊rect.x1 * (shape.2 : ℝ)⌋ := by
    unfold pyInt; rw [if_pos (mul_nonneg hx1 hw)]
  have f0 : pyInt (rect.y0 * (shape.1 : ℝ)) = ⌊rect.y0 * (shape.1 : ℝ)⌋ := by
    unfold pyInt; rw [if_pos (mul_nonneg hy0 hh)]
  have f1 : pyInt (rect.y1 * (shape.1 : ℝ)) = ⌊rect.y1 * (shape.1 : ℝ)⌋ := by
    unfold pyInt; rw [if_pos (mul_nonneg hy1 hh)]
  have hb : FTMixer.region_pixel_bounds shape rect =
      (max 0 (min ⌊rect.x0 * (shape.2 : ℝ)⌋ ⌊rect.x1 * (shape.2 : ℝ)⌋),
       min (shape.2 : ℤ) (max ⌊rect.x0 * (shape.2 : ℝ)⌋ ⌊rect.x1 * (shape.2 : ℝ)⌋),
       max 0 (min ⌊rect.y0 * (shape.1 : ℝ)⌋ ⌊rect.y1 * (shape.1 : ℝ)⌋),
       min (shape.1 : ℤ) (max ⌊rect.y0 * (shape.1 : ℝ)⌋ ⌊rect.y1 * (shape.1 : ℝ)⌋)) := by
    simp only [FTMixer.region_pixel_bounds]
    rw [e0, e1, f0, f1]
  have ha0 : 0 ≤ ⌊rect.x0 * (shape.2 : ℝ)⌋ := Int.floor_nonneg.mpr (mul_nonneg hx0 hw)
  have ha1 : 0 ≤ ⌊rect.x1 * (shape.2 : ℝ)⌋ := Int.floor_nonneg.mpr (mul_nonneg hx1 hw)
  have hc0 : 0 ≤ ⌊rect.y0 * (shape.1 : ℝ)⌋ := Int.floor_nonneg.mpr (mul_nonneg hy0 hh)
  have hc1 : 0 ≤ ⌊rect.y1 * (shape.1 : ℝ)⌋ := Int.floor_nonneg.mpr (mul_nonneg hy1 hh)
  have haw : ⌊rect.x0 * (shape.2 : ℝ)⌋ ≤ (shape.2 : ℤ) := by
    have hle : rect.x0 * (shape.2 : ℝ) ≤ (shape.2 : ℝ) := mul_le_of_le_one_left hw hx0le
    calc ⌊rect.x0 * (shape.2 : ℝ)⌋ ≤ ⌊((shape.2 : ℕ) : ℝ)⌋ := Int.floor_mono hle
      _ = (shape.2 : ℤ) := Int.floor_natCast _
  have haw1 : ⌊rect.x1 * (shape.2 : ℝ)⌋ ≤ (shape.2 : ℤ) := by
    have hle : rect.x1 * (shape.2 : ℝ) ≤ (shape.2 : ℝ) := mul_le_of_le_one_left hw hx1le
    calc ⌊rect.x1 * (shape.2 : ℝ)⌋ ≤ ⌊((shape.2 : ℕ) : ℝ)⌋ := Int.floor_mono hle
      _ = (shape.2 : ℤ) := Int.floor_natCast _
  have hch : ⌊rect.y0 * (shape.1 : ℝ)⌋ ≤ (shape.1 : ℤ) := by
    have hle : rect.y0 * (shape.1 : ℝ) ≤ (shape.1 : ℝ) := mul_le_of_le_one_left hh hy0le
    calc ⌊rect.y0 * (shape.1 : ℝ)⌋ ≤ ⌊((shape.1 : ℕ) : ℝ)⌋ := Int.floor_mono hle
      _ = (shape.1 : ℤ) := Int.floor_natCast _
  have hch1 : ⌊rect.y1 * (shape.1 : ℝ)⌋ ≤ (shape.1 : ℤ) := by
    have hle : rect.y1 * (shape.1 : ℝ) ≤ (shape.1 : ℝ) := mul_le_of_le_one_left hh hy1le
    calc ⌊rect.y1 * (shape.1 : ℝ)⌋ ≤ ⌊((shape.1 : ℕ) : ℝ)⌋ := Int.floor_mono hle
      _ = (shape.1 : ℤ) := Int.floor_natCast _
  have hxb : 0 ≤ max 0 (min ⌊rect.x0 * (shape.2 : ℝ)⌋ ⌊rect.x1 * (shape.2 : ℝ)⌋) ∧
      max 0 (min ⌊rect.x0 * (shape.2 : ℝ)⌋ ⌊rect.x1 * (shape.2 : ℝ)⌋) ≤
        min (shape.2 : ℤ) (max ⌊rect.x0 * (shape.2 : ℝ)⌋ ⌊rect.x1 * (shape.2 : ℝ)⌋) ∧
      min (shape.2 : ℤ) (max ⌊rect.x0 * (shape.2 : ℝ)⌋ ⌊rect.x1 * (shape.2 : ℝ)⌋) ≤
        (shape.2 : ℤ) := by
    omega
  have hyb : 0 ≤ max 0 (min ⌊rect.y0 * (shape.1 : ℝ)⌋ ⌊rect.y1 * (shape.1 : ℝ)⌋) ∧
      max 0 (min ⌊rect.y0 * (shape.1 : ℝ)⌋ ⌊rect.y1 * (shape.1 : ℝ)⌋) ≤
        min (shape.1 : ℤ) (max ⌊rect.y0 * (shape.1 : ℝ)⌋ ⌊rect.y1 * (shape.1 : ℝ)⌋) ∧
      min (shape.1 : ℤ) (max ⌊rect.y0 * (shape.1 : ℝ)⌋ ⌊rect.y1 * (shape.1 : ℝ)⌋) ≤
        (shape.1 : ℤ) := by
    omega
  refine ⟨hb, ?_, ?_, fun i j => ⟨rfl, rfl⟩⟩
  · rw [hb]
    exact hxb
  · rw [hb]
    exact hyb

/-- C4 witness: the full-frame rectangle on a 4 x 4 spectrum. -/
theorem region_mask_spec_witness :
    ((0 : ℝ) ≤ 0 ∧ (0 : ℝ) ≤ 1 ∧ (1 : ℝ) ≤ 1)
  ∧ FTMixer.region_pixel_bounds (4, 4) ⟨0, 0, 1, 1⟩ =
      (max 0 (min ⌊(0 : ℝ) * ((4 : Nat) : ℝ)⌋ ⌊(1 : ℝ) * ((4 : Nat) : ℝ)⌋),
       min ((4 : Nat) : ℤ) (max ⌊(0 : ℝ) * ((4 : Nat) : ℝ)⌋ ⌊(1 : ℝ) * ((4 : Nat) : ℝ)⌋),
       max 0 (min ⌊(0 : ℝ) * ((4 : Nat) : ℝ)⌋ ⌊(1 : ℝ) * ((4 : Nat) : ℝ)⌋),
       min ((4 : Nat) : ℤ) (max ⌊(0 : ℝ) * ((4 : Nat) : ℝ)⌋ ⌊(1 : ℝ) * ((4 : Nat) : ℝ)⌋)) :=
  ⟨⟨le_refl 0, zero_le_one, le_refl 1⟩,
    (region_mask_spec (4, 4) ⟨0, 0, 1, 1⟩ (le_refl 0) zero_le_one (le_refl 0)
      zero_le_one zero_le_one (le_refl 1) zero_le_one (le_refl 1)).1⟩



/-- The magnitude/phase mix of a single source with weight 1 reconstructs,
per cell, magnitude * exp(i * phase) of that source. -/
theorem mix_magnitude_phase_single (F : FFTImpl) (p : ImageProcessor)
    (shape : Nat × Nat) :
    FTMixer.mix_magnitude_phase F (fun _ => false) [(p, 1)] shape =
      some ⟨shape, fun i j =>
        ((magD F p i j : ℝ) : ℂ) *
          Complex.exp (Complex.I * ((phaseD F p i j : ℝ) : ℂ))⟩ := by
  have hrun : FTMixer.mix_magnitude_phase_loop F (fun _ => false) 0 [(p, 1)]
      (fun _ _ => 0) (fun _ _ => 0) 0 =
      some (fun i j => magD F p i j, fun i j => phaseD F p i j, 1) := by
    rw [mix_magnitude_phase_loop_run]
    simp [weightTotal]
  unfold FTMixer.mix_magnitude_phase
  simp only [hrun]
  rw [if_pos one_pos, if_pos one_pos]
  simp [div_one]

/-- The real/imaginary mix of a single source with weight 1 reconstructs,
per cell, real + i * imaginary of that source. -/
theorem mix_real_imaginary_single (F : FFTImpl) (p : ImageProcessor)
    (shape : Nat × Nat) :
    FTMixer.mix_real_imaginary F (fun _ => false) [(p, 1)] shape =
      some ⟨shape, fun i j =>
        ((realD F p i j : ℝ) : ℂ) + Complex.I * ((imagD F p i j : ℝ) : ℂ)⟩ := by
  have hrun : FTMixer.mix_real_imaginary_loop F (fun _ => false) 0 [(p, 1)]
      (fun _ _ => 0) (fun _ _ => 0) 0 =
      some (fun i j => realD F p i j, fun i j => imagD F p i j, 1) := by
    rw [mix_real_imaginary_loop_run]
    simp [weightTotal]
  unfold FTMixer.mix_real_imaginary
  simp only [hrun]
  rw [if_pos one_pos, if_pos one_pos]
  simp [div_one]

/-- C7: mixing a single coherent loaded source with weight 1 and no region,
in any mode, completes and reproduces the original image to within 8-bit
quantization error: the output has the source shape and at every pixel with
value in [0, 255] the quantized reconstruction differs from the original by
at most 1. -/
theorem single_source_round_trip (F : FFTImpl) (p : ImageProcessor)
    (img : NDArr ℝ) (hF : F.Lawful) (himg : p.image = some img)
    (hsh : p.shape = some img.shape) (hcoh : CacheCoherent F p) :
    ∀ mode : String, ∃ out : NDArr ℤ,
      FTMixer.mix_components F (fun _ => false) [p] [(1 : ℝ)] mode none true =
        some out
    ∧ out.shape = img.shape
    ∧ ∀ i j, 0 ≤ img.data i j → img.data i j ≤ 255 →
        |((out.data i j : ℤ) : ℝ) - img.data i j| ≤ 1 := by
  intro mode
  have hvd : FTMixer.validData [p] [(1 : ℝ)] = [(p, 1)] := by
    simp [FTMixer.validData, himg]
  have hz := fftValD_of_coherent F p img hcoh himg
  have hshape0 : (F.fftshift (F.fft2 img)).shape = img.shape := by
    rw [hF.fftshift_shape, hF.fft2_shape]
  have href : p.shape.getD (0, 0) = img.shape := by rw [hsh]; rfl
  have hpt_m : ∀ z : ℂ,
      ((Complex.abs z : ℝ) : ℂ) * Complex.exp (Complex.I * ((z.arg : ℝ) : ℂ)) = z := by
    intro z
    rw [mul_comm Complex.I _]
    exact Complex.abs_mul_exp_arg_mul_I z
  have hpt_r : ∀ z : ℂ, ((z.re : ℝ) : ℂ) + Complex.I * ((z.im : ℝ) : ℂ) = z := by
    intro z
    rw [mul_comm Complex.I _]
    exact Complex.re_add_im z
  have hmixed : (⟨p.shape.getD (0, 0), fun i j => (F.fftshift (F.fft2 img)).data i j⟩ :
      NDArr ℂ) = F.fftshift (F.fft2 img) := by
    rw [href, ← hshape0]
  have hblend :
      (if mode = "mag_phase" then
        FTMixer.mix_magnitude_phase F (fun _ => false) [(p, 1)] (p.shape.getD (0, 0))
       else
        FTMixer.mix_real_imaginary F (fun _ => false) [(p, 1)] (p.shape.getD (0, 0))) =
      some (F.fftshift (F.fft2 img)) := by
    by_cases hm : mode = "mag_phase"
    · rw [if_pos hm, mix_magnitude_phase_single]
      rw [← hmixed]
      simp only [Option.some.injEq, NDArr.mk.injEq, heq_eq_eq, true_and]
      funext i j
      simp only [magD, phaseD, hz]
      exact hpt_m _
    · rw [if_neg hm, mix_real_imaginary_single]
      rw [← hmixed]
      simp only [Option.some.injEq, NDArr.mk.injEq, heq_eq_eq, true_and]
      funext i j
      simp only [realD, imagD, hz]
      exact hpt_r _
  have hres : F.ifft2 (F.ifftshift (F.fftshift (F.fft2 img))) =
      ⟨img.shape, fun i j => ((img.data i j : ℝ) : ℂ)⟩ := by
    rw [hF.shift_inv, hF.fft_inv]
  refine ⟨⟨img.shape, fun i j => pyInt (npClip (img.data i j) 0 255)⟩, ?_, rfl, ?_⟩
  · rw [mix_components_cons F (fun _ => false) [p] [(1 : ℝ)] mode none true p 1 [] hvd,
      hblend]
    simp only [FTMixer.mix_finalize]
    rw [if_neg Bool.false_ne_true, hres]
    simp [Complex.ofReal_re]
  · intro i j h0 h255
    have hclip : npClip (img.data i j) 0 255 = img.data i j := by
      unfold npClip
      rw [min_eq_left h255, max_eq_right h0]
    have hint : pyInt (npClip (img.data i j) 0 255) = ⌊img.data i j⌋ := by
      rw [hclip]
      unfold pyInt
      rw [if_pos h0]
    have hfl := Int.floor_le (img.data i j)
    have hfu := Int.lt_floor_add_one (img.data i j)
    show |((pyInt (npClip (img.data i j) 0 255) : ℤ) : ℝ) - img.data i j| ≤ 1
    rw [hint, abs_le]
    constructor
    · linarith
    · linarith

/-- C7 witness: the trivial lawful transform bundle on a concrete 1 x 1
source. -/
theorem single_source_round_trip_witness :
    trivialFFT.Lawful
  ∧ procW.image = some img1
  ∧ procW.shape = some img1.shape
  ∧ CacheCoherent trivialFFT procW
  ∧ (∀ mode : String, ∃ out : NDArr ℤ,
      FTMixer.mix_components trivialFFT (fun _ => false) [procW] [(1 : ℝ)] mode
          none true = some out
    ∧ out.shape = img1.shape
    ∧ ∀ i j, 0 ≤ img1.data i j → img1.data i j ≤ 255 →
        |((out.data i j : ℤ) : ℝ) - img1.data i j| ≤ 1) :=
  ⟨⟨fun _ => rfl, fun _ => rfl, fun _ => rfl, fun _ => rfl⟩, rfl, rfl, Or.inl rfl,
    single_source_round_trip trivialFFT procW img1
      ⟨fun _ => rfl, fun _ => rfl, fun _ => rfl, fun _ => rfl⟩ rfl rfl (Or.inl rfl)⟩

/-- C8 counterexample: a schedule the code permits (the bounded join can time
out) in which, right after the new job 2 is spawned, the old job 1 is
neither finished nor Cancelled (two jobs in flight), and in which job 2 —
the last-started job — completes and writes the slot first, after resetting
the shared flag, whereupon job 1 passes its final check and overwrites the
slot: the kept result is job 1, not the last-started job 2. -/
theorem single_flight_counterexample :
    (sysRun sysInit c8Schedule).slot = some 1
  ∧ (sysRun sysInit c8Schedule).workers = [⟨1, [], false⟩, ⟨2, [], false⟩]
  ∧ (sysRun sysInit (c8Schedule.take 6)).workers =
      [⟨1, [WAct.finalWrite], false⟩, ⟨2, workerProg 1, false⟩]
  ∧ (sysRun sysInit (c8Schedule.take 6)).flag = true := by
  refine ⟨rfl, rfl, rfl, rfl⟩

/-- C8 amended: what the code does guarantee — the destination slot changes
only when some worker executes its final write while the shared flag is
observed clear (the write is a single atomic transfer of a fully computed
result), and a worker that observes the flag set at any checkpoint
(per-source, pre-ifft, or final) halts discarding its work without touching
the slot.  The old job is forced to Cancelled only if it polls the flag
while set; otherwise it may keep running beside the new job and may later
overwrite the slot (last write wins, not last start). -/
theorem single_flight_amended (s : MixerSys) (e : SysEv) :
    ((sysStep s e).slot ≠ s.slot →
      ∃ i wk, e = SysEv.runStep i ∧ s.workers[i]? = some wk ∧
        wk.prog.head? = some WAct.finalWrite ∧ s.flag = false ∧
        (sysStep s e).slot = some wk.jid)
  ∧ (∀ i wk, e = SysEv.runStep i → s.workers[i]? = some wk → s.flag = true →
      (wk.prog.head? = some WAct.checkSrc ∨ wk.prog.head? = some WAct.checkPre ∨
        wk.prog.head? = some WAct.finalWrite) →
      (sysStep s e).slot = s.slot ∧
        (sysStep s e).workers = s.workers.set i ⟨wk.jid, [], true⟩) := by
  constructor
  · intro hch
    cases e with
    | cancelSignal => exact absurd rfl hch
    | spawn j n => exact absurd rfl hch
    | runStep i =>
        rcases hw : s.workers[i]? with _ | wk
        · exact absurd (by simp [sysStep, hw]) hch
        · rcases hp : wk.prog with _ | ⟨a, rest⟩
          · exact absurd (by simp [sysStep, hw, stepWorker, hp]) hch
          · rcases hfl : s.flag with _ | _
            · cases a with
              | reset => exact absurd (by simp [sysStep, hw, stepWorker, hp]) hch
              | checkSrc =>
                  exact absurd (by simp [sysStep, hw, stepWorker, hp, hfl]) hch
              | checkPre =>
                  exact absurd (by simp [sysStep, hw, stepWorker, hp, hfl]) hch
              | finalWrite =>
                  exact ⟨i, wk, rfl, hw, by rw [hp]; rfl, rfl,
                    by simp [sysStep, hw, stepWorker, hp, hfl]⟩
            · cases a with
              | reset => exact absurd (by simp [sysStep, hw, stepWorker, hp]) hch
              | checkSrc =>
                  exact absurd (by simp [sysStep, hw, stepWorker, hp, hfl]) hch
              | checkPre =>
                  exact absurd (by simp [sysStep, hw, stepWorker, hp, hfl]) hch
              | finalWrite =>
                  exact absurd (by simp [sysStep, hw, stepWorker, hp, hfl]) hch
  · intro i wk he hw hfl hhead
    subst he
    rcases hp : wk.prog with _ | ⟨a, rest⟩
    · rw [hp] at hhead
      simp at hhead
    · rw [hp] at hhead
      cases a with
      | reset => simp at hhead
      | checkSrc =>
          exact ⟨by simp [sysStep, hw, stepWorker, hp, hfl],
            by simp [sysStep, hw, stepWorker, hp, hfl]⟩
      | checkPre =>
          exact ⟨by simp [sysStep, hw, stepWorker, hp, hfl],
            by simp [sysStep, hw, stepWorker, hp, hfl]⟩
      | finalWrite =>
          exact ⟨by simp [sysStep, hw, stepWorker, hp, hfl],
            by simp [sysStep, hw, stepWorker, hp, hfl]⟩

/-- C8 amended witness: a concrete slot-changing step. -/
theorem single_flight_amended_witness :
    (sysStep c8WitState (SysEv.runStep 0)).slot ≠ c8WitState.slot
  ∧ (∃ i wk, SysEv.runStep 0 = SysEv.runStep i ∧ c8WitState.workers[i]? = some wk ∧
      wk.prog.head? = some WAct.finalWrite ∧ c8WitState.flag = false ∧
      (sysStep c8WitState (SysEv.runStep 0)).slot = some wk.jid) :=
  ⟨by decide, (single_flight_amended c8WitState (SysEv.runStep 0)).1 (by decide)⟩

/-- C9 counterexample: resizing a viewer that has no loaded image returns
True — the same success indicator as the loaded-image path — and changes
nothing; no error reaches the caller. -/
theorem resize_no_image_reports_success :
    ImageViewer.resize_to emptyViewer trivialResize (3, 3) = (emptyViewer, true) := by
  rfl

/-- C9 amended: resize with no image loaded leaves the processor state
entirely unchanged and yields the None sentinel at the processor level, but
the viewer-level wrapper reports success (True) because no exception is
raised; with an image loaded, resize stores the Lanczos resample of the
uint8-cast image at the target shape and invalidates the cached
transform. -/
theorem resize_behavior_amended (L : ResizeImpl) (p : ImageProcessor)
    (v : ImageViewer) (t : Nat × Nat) (img : NDArr ℝ)
    (hL : ∀ a ts, (L.resize a ts).shape = ts) :
    (p.image = none → p.resize_to L t = (p, none))
  ∧ (v.processor.image = none → v.resize_to L t = (v, true))
  ∧ (p.image = some img →
      (p.resize_to L t).1 = ⟨some (L.resize img.astypeUint8 t), none, some t⟩) := by
  refine ⟨?_, ?_, ?_⟩
  · intro h
    unfold ImageProcessor.resize_to
    rw [h]
  · intro h
    unfold ImageViewer.resize_to
    have hst : (v.processor.resize_to L t).1 = v.processor := by
      unfold ImageProcessor.resize_to; rw [h]
    rw [hst]
  · intro h
    have hst : (p.resize_to L t).1 =
        ⟨some (L.resize img.astypeUint8 t), none,
          some (L.resize img.astypeUint8 t).shape⟩ := by
      unfold ImageProcessor.resize_to; rw [h]
    rw [hst, hL]

/-- C9 amended witness: the trivial resampler on the empty and the loaded
processor. -/
theorem resize_behavior_amended_witness :
    (∀ a ts, (trivialResize.resize a ts).shape = ts)
  ∧ ImageProcessor.init.resize_to trivialResize (2, 2) = (ImageProcessor.init, none)
  ∧ (procW.resize_to trivialResize (2, 2)).1 =
      ⟨some (trivialResize.resize img1.astypeUint8 (2, 2)), none, some (2, 2)⟩ :=
  ⟨fun _ _ => rfl,
    (resize_behavior_amended trivialResize ImageProcessor.init emptyViewer (2, 2) img1
      (fun _ _ => rfl)).1 rfl,
    (resize_behavior_amended trivialResize procW emptyViewer (2, 2) img1
      (fun _ _ => rfl)).2.2 rfl⟩


end FTSim
